import Mathlib

/-!
Verification of the Merkle batching / whitelist scripts of
`tron-settlement-batching-layer` (`contracts/script/merkle/...`).

Bytes are modelled as `List Nat` with each element a byte value.
`keccak` below is a full executable Keccak-256 (original Keccak padding,
rate 1088), the hash used by `Web3.solidity_keccak` / `eth_utils.keccak`.
The Merkle-tree and leaf-encoding functions are shallow embeddings of the
Python sources (`generateBatchRoot.py`, `generateBatchRootDeploy.py`,
`generateRoot.py`, `generateWhitelistRootDeploy.py`).
-/

namespace SettleBatch

abbrev Bytes := List Nat

/-! ## Keccak-256 -/

/-- Round constants of Keccak-f[1600] (decimal values of the standard iota
constants, three per line). -/
def keccakRC : List Nat :=
  [1, 32898, 9223372036854808714,
   9223372039002292224, 32907, 2147483649,
   9223372039002292353, 9223372036854808585, 138,
   136, 2147516425, 2147483658,
   2147516555, 9223372036854775947, 9223372036854808713,
   9223372036854808579, 9223372036854808578, 9223372036854775936,
   32778, 9223372039002259466, 9223372039002292353,
   9223372036854808704, 2147483649, 9223372039002292232]

/-- Rotation offsets of the rho step, one row per y, lane (x, y) at index
x + 5*y of the joined list. -/
def keccakRhoRows : List (List Nat) :=
  [[0, 1, 62, 28, 27],
   [36, 44, 6, 55, 20],
   [3, 10, 43, 25, 39],
   [41, 45, 15, 21, 8],
   [18, 2, 61, 56, 14]]

def keccakRho : List Nat :=
  keccakRhoRows.flatten

/-- Rotate a 64-bit lane left by n (0 ≤ n < 64). -/
def rotl64 (x n : Nat) : Nat :=
  ((x <<< n) % 18446744073709551616) ||| (x >>> (64 - n))

/-- One round of Keccak-f[1600] on a 25-lane state. -/
def keccakRound (A : List Nat) (rc : Nat) : List Nat :=
  let C := (List.range 5).map (fun x =>
    A.getD x 0 ^^^ A.getD (x + 5) 0 ^^^ A.getD (x + 10) 0 ^^^
    A.getD (x + 15) 0 ^^^ A.getD (x + 20) 0)
  let D := (List.range 5).map (fun x =>
    C.getD ((x + 4) % 5) 0 ^^^ rotl64 (C.getD ((x + 1) % 5) 0) 1)
  let A1 := (List.range 25).map (fun i => A.getD i 0 ^^^ D.getD (i % 5) 0)
  let B := (List.range 25).map (fun j =>
    let y := j % 5
    let x := (3 * (j / 5) + y) % 5
    rotl64 (A1.getD (x + 5 * y) 0) (keccakRho.getD (x + 5 * y) 0))
  let A2 := (List.range 25).map (fun i =>
    let x := i % 5
    let y := i / 5
    B.getD i 0 ^^^
      ((B.getD ((x + 1) % 5 + 5 * y) 0 ^^^ 18446744073709551615) &&&
        B.getD ((x + 2) % 5 + 5 * y) 0))
  A2.set 0 (A2.getD 0 0 ^^^ rc)

/-- The Keccak-f[1600] permutation: 24 rounds. -/
def keccakF (A : List Nat) : List Nat :=
  keccakRC.foldl keccakRound A

/-- Original Keccak padding (0x01 .. 0x80) to a multiple of the 136-byte rate. -/
def keccakPad (m : Bytes) : Bytes :=
  let q := 136 - m.length % 136
  m ++ (if q = 1 then [0x81] else 0x01 :: (List.replicate (q - 2) 0 ++ [0x80]))

/-- Split a (padded) message into 136-byte blocks.  Structural recursion on a
fuel argument so that the kernel can evaluate it; whenever `m.length ≤ fuel`
the result is the list of successive 136-byte slices of `m`. -/
def chunks136Aux : Nat → Bytes → List Bytes
  | 0, _ => []
  | fuel + 1, m => if m = [] then [] else m.take 136 :: chunks136Aux fuel (m.drop 136)

def chunks136 (m : Bytes) : List Bytes :=
  chunks136Aux m.length m

/-- Interpret a 136-byte block as 17 little-endian 64-bit lanes. -/
def blockLanes (blk : Bytes) : List Nat :=
  (List.range 17).map (fun j =>
    (List.range 8).foldl (fun acc k => acc + (blk.getD (8 * j + k) 0 <<< (8 * k))) 0)

/-- Absorb one block into the sponge state and permute. -/
def absorbBlock (st : List Nat) (blk : Bytes) : List Nat :=
  keccakF ((List.range 25).map (fun i =>
    if i < 17 then st.getD i 0 ^^^ (blockLanes blk).getD i 0 else st.getD i 0))

/-- Keccak-256 of a byte string: 32-byte digest. -/
def keccak (m : Bytes) : Bytes :=
  let st := (chunks136 (keccakPad m)).foldl absorbBlock (List.replicate 25 0)
  (List.range 32).map (fun i => (st.getD (i / 8) 0 >>> (8 * (i % 8))) % 256)

/-! ## Python byte-string comparison

`bytes` in Python compare lexicographically by unsigned byte value, a proper
prefix comparing smaller. -/

def pyLt : Bytes → Bytes → Bool
  | u :: us, v :: vs => if u < v then true else if v < u then false else pyLt us vs
  | [], [] => false
  | [], _ :: _ => true
  | _ :: _, [] => false

def pyLe : Bytes → Bytes → Bool
  | u :: us, v :: vs => if u < v then true else if v < u then false else pyLe us vs
  | [], _ => true
  | _ :: _, [] => false

/-! ## Batch Merkle tree (`generateBatchRoot.py`, identical in
`generateBatchRootDeploy.py`) -/

/-- Pair combination in `MerkleTree._build_tree`:
`if left > right: left, right = right, left` then
`Web3.solidity_keccak(['bytes32','bytes32'], [left, right])`.
The same sorted-pair rule appears in `generateWhitelistRootDeploy.py`'s
`merkle_tree`. -/
def combine (l r : Bytes) : Bytes :=
  if pyLt r l then keccak (r ++ l) else keccak (l ++ r)

/-- One layer reduction in `MerkleTree._build_tree`: consecutive pairs are
combined; a trailing unpaired node is promoted unchanged. -/
def nextLevel : List Bytes → List Bytes
  | [] => []
  | [x] => [x]
  | x :: y :: rest => combine x y :: nextLevel rest

/-- The `while len(current) > 1` loop of `_build_tree`, peeled on a fuel
argument so the kernel can evaluate it.  Whenever `cur.length ≤ fuel + 1` the
result agrees with the unbounded loop (at fuel 0 the invariant forces
`cur.length ≤ 1`, where the loop also stops with `[cur]`). -/
def buildLoopAux : Nat → List Bytes → List (List Bytes)
  | 0, cur => [cur]
  | fuel + 1, cur =>
      if cur.length ≤ 1 then [cur] else cur :: buildLoopAux fuel (nextLevel cur)

/-- `MerkleTree._build_tree`: `[[]]` for empty input, otherwise the list of
layers from the leaves up to the single root layer. -/
def build_tree (leaves : List Bytes) : List (List Bytes) :=
  if leaves.isEmpty then [[]] else buildLoopAux leaves.length leaves

/-- `MerkleTree.get_root`:
`self.tree[-1][0] if self.tree and self.tree[-1] else b'\x00' * 32`. -/
def get_root (tree : List (List Bytes)) : Bytes :=
  match tree.getLast? with
  | some (x :: _) => x
  | _ => List.replicate 32 0

inductive MerkleErr where
  | indexError
deriving DecidableEq, Repr

/-- The loop body of `MerkleTree.get_proof` over the layers below the root:
even index appends the right sibling when it exists, odd index reads
`curr[idx - 1]` unconditionally (an out-of-range read raises `IndexError`). -/
def proofLoop : List (List Bytes) → Nat → Except MerkleErr (List Bytes)
  | [], _ => .ok []
  | cur :: rest, idx =>
      if idx % 2 = 0 then
        if idx + 1 < cur.length then
          (proofLoop rest (idx / 2)).map (fun pf => cur.getD (idx + 1) [] :: pf)
        else
          proofLoop rest (idx / 2)
      else
        if idx - 1 < cur.length then
          (proofLoop rest (idx / 2)).map (fun pf => cur.getD (idx - 1) [] :: pf)
        else
          .error .indexError

/-- `MerkleTree.get_proof`: walks `range(len(self.tree) - 1)`, i.e. every
layer except the root layer.  Note: there is no bounds check on `index`. -/
def get_proof (tree : List (List Bytes)) (index : Nat) : Except MerkleErr (List Bytes) :=
  proofLoop tree.dropLast index

/-- Fold step of `MerkleTree.verify_proof`:
`if computed <= p: keccak(computed ‖ p) else keccak(p ‖ computed)`. -/
def combineV (c p : Bytes) : Bytes :=
  if pyLe c p then keccak (c ++ p) else keccak (p ++ c)

/-- `MerkleTree.verify_proof`. -/
def verify_proof (leaf : Bytes) (pf : List Bytes) (root : Bytes) : Bool :=
  pf.foldl combineV leaf == root

/-! ## Whitelist tree (`generateRoot.py`) -/

/-- `hash_pair`: `if a < b: keccak(a + b) else keccak(b + a)`. -/
def hash_pair (a b : Bytes) : Bytes :=
  if pyLt a b then keccak (a ++ b) else keccak (b ++ a)

/-- One layer of `build_tree`: `r = cur[i+1] if i+1 < len(cur) else cur[i]` —
a trailing unpaired node is paired with a copy of itself. -/
def wlNext : List Bytes → List Bytes
  | x :: y :: rest => hash_pair x y :: wlNext rest
  | [x] => [hash_pair x x]
  | [] => []

/-- The `while len(layers[-1]) > 1` loop of `build_tree` (fuel-peeled as for
`buildLoopAux`). -/
def wlBuildAux : Nat → List Bytes → List (List Bytes)
  | 0, cur => [cur]
  | fuel + 1, cur =>
      if cur.length ≤ 1 then [cur] else cur :: wlBuildAux fuel (wlNext cur)

/-- `build_tree` of `generateRoot.py`. -/
def wlBuild (leaves : List Bytes) : List (List Bytes) :=
  wlBuildAux leaves.length leaves

/-- Loop body of `proof`: `sib = idx ^ 1`, appended only when `sib < len(layer)`. -/
def wlProofLoop : List (List Bytes) → Nat → List Bytes
  | [], _ => []
  | layer :: rest, idx =>
      (if idx ^^^ 1 < layer.length then [layer.getD (idx ^^^ 1) []] else []) ++
        wlProofLoop rest (idx / 2)

/-- `proof(layers, idx)`: iterates over `layers[:-1]`. -/
def wlProof (layers : List (List Bytes)) (idx : Nat) : List Bytes :=
  wlProofLoop layers.dropLast idx

/-- `verify_sorted`: folds `if h < p: keccak(h + p) else keccak(p + h)`. -/
def verify_sorted (leaf : Bytes) (pf : List Bytes) (rt : Bytes) : Bool :=
  (pf.foldl (fun h p => if pyLt h p then keccak (h ++ p) else keccak (p ++ h)) leaf) == rt

/-- The root taken by `generateRoot.py`'s main flow: `rt = layers[-1][0]`. -/
def wlRootOf (layers : List (List Bytes)) : Bytes :=
  (layers.getLast?.getD []).getD 0 []

/-! ## Whitelist tree (`generateWhitelistRootDeploy.py`) -/

/-- One layer of `merkle_tree`: `right = layer[i+1] if i+1 < len(layer) else
layer[i]`, then the sorted-pair keccak — the same duplication rule as
`generateRoot.py` but with the batch files' swap formulation. -/
def wlDeployNext : List Bytes → List Bytes
  | x :: y :: rest => combine x y :: wlDeployNext rest
  | [x] => [combine x x]
  | [] => []

def wlDeployTreeAux : Nat → List Bytes → List (List Bytes)
  | 0, cur => [cur]
  | fuel + 1, cur =>
      if cur.length ≤ 1 then [cur] else cur :: wlDeployTreeAux fuel (wlDeployNext cur)

/-- `merkle_tree` of `generateWhitelistRootDeploy.py`. -/
def wlDeployTree (leaves : List Bytes) : List (List Bytes) :=
  wlDeployTreeAux leaves.length leaves

/-- `merkle_root(tree)`: `tree[-1][0] if tree else None`.  For a non-empty
`tree` whose last layer is empty, `tree[-1][0]` raises `IndexError`. -/
def merkle_root (tree : List (List Bytes)) : Except MerkleErr (Option Bytes) :=
  if tree = [] then .ok none
  else
    match tree.getLast?.getD [] with
    | [] => .error .indexError
    | x :: _ => .ok (some x)

/-! ## Transfer leaf encoding (`calculate_tx_hash`)

`Web3.solidity_keccak(types, values)` is `keccak256` of the packed ABI
encoding: each value is written big-endian in exactly the byte width of its
declared type (`address` = 20, `uint256` = 32, `uint64` = 8, `uint48` = 6,
`uint32` = 4, `uint8` = 1), with no padding between fields. -/

/-- Big-endian fixed-width encoding of a (in-range) unsigned integer. -/
def toBytesBE (w v : Nat) : Bytes :=
  (List.range w).map (fun i => (v >>> (8 * (w - 1 - i))) % 256)

/-- `TransferData` (addresses already in canonical 20-byte form). -/
structure TransferData where
  from_address : Bytes
  to_address : Bytes
  amount : Nat
  nonce : Nat
  timestamp : Nat
  recipient_count : Nat
  batch_id : Nat
  tx_type : Nat
  batch_salt : Nat
deriving DecidableEq, Repr

/-- The packed byte string hashed by `calculate_tx_hash` — note `batch_id`
does not occur. -/
def packedEncode (tx : TransferData) : Bytes :=
  tx.from_address ++ tx.to_address ++ toBytesBE 32 tx.amount ++ toBytesBE 8 tx.nonce ++
    toBytesBE 6 tx.timestamp ++ toBytesBE 4 tx.recipient_count ++ toBytesBE 1 tx.tx_type ++
    toBytesBE 8 tx.batch_salt

/-- `calculate_tx_hash` of `generateBatchRoot.py`. -/
def calculate_tx_hash (tx : TransferData) : Bytes :=
  keccak (packedEncode tx)

/-- `ensure_uint_bounds` of `generateBatchRootDeploy.py` (the `0 <= x` half of
each Python check is automatic for `Nat`). -/
def ensure_uint_bounds (nonce timestamp recipient_count : Nat) : Except String Unit :=
  if 18446744073709551615 < nonce then .error "nonce exceeds uint64"
  else if 281474976710655 < timestamp then .error "timestamp exceeds uint48"
  else if 4294967295 < recipient_count then .error "recipient_count exceeds uint32"
  else .ok ()

/-- `calculate_tx_hash` of `generateBatchRootDeploy.py`: bounds first, then
the packed keccak. -/
def calculate_tx_hash_deploy (tx : TransferData) : Except String Bytes :=
  match ensure_uint_bounds tx.nonce tx.timestamp tx.recipient_count with
  | .error e => .error e
  | .ok _ => .ok (keccak (packedEncode tx))

/-! ## Whitelist leaf encoding (`generateRoot.py`) -/

def isPySpace (c : Char) : Bool :=
  c = ' ' || c = '\t' || c = '\n' || c = '\r' || c = '\x0b' || c = '\x0c'

/-- Python `str.strip()`. -/
def pyStrip (s : List Char) : List Char :=
  ((s.dropWhile isPySpace).reverse.dropWhile isPySpace).reverse

/-- `addr.startswith("0x")`. -/
def startsWith0x : List Char → Bool
  | '0' :: 'x' :: _ => true
  | _ => false

def isHexDigitCh (c : Char) : Bool :=
  ('0' ≤ c && c ≤ '9') || ('a' ≤ c && c ≤ 'f') || ('A' ≤ c && c ≤ 'F')

/-- `eth_utils.is_hex_address` on a `0x`-prefixed string: 42 characters, the
40 after the prefix all hex digits. -/
def isHexAddress (s : List Char) : Bool :=
  s.length == 42 && startsWith0x s && (s.drop 2).all isHexDigitCh

def toLowerCh (c : Char) : Char :=
  if 'A' ≤ c ∧ c ≤ 'Z' then Char.ofNat (c.toNat + 32) else c

/-- `normalize` of `generateRoot.py`: strip, ensure `0x` prefix, validate,
lowercase. -/
def normalize (s : List Char) : Except String (List Char) :=
  let s1 := pyStrip s
  let s2 := if startsWith0x s1 then s1 else '0' :: 'x' :: s1
  if isHexAddress s2 then .ok (s2.map toLowerCh) else .error "Invalid address"

def hexVal (c : Char) : Nat :=
  if '0' ≤ c ∧ c ≤ '9' then c.toNat - 48
  else if 'a' ≤ c ∧ c ≤ 'f' then c.toNat - 87
  else if 'A' ≤ c ∧ c ≤ 'F' then c.toNat - 55
  else 0

/-- `bytes.fromhex` on an even-length hex string. -/
def fromHexPairs : List Char → Bytes
  | c1 :: c2 :: rest => (16 * hexVal c1 + hexVal c2) :: fromHexPairs rest
  | _ => []

/-- `leaf_hash` of `generateRoot.py`:
`keccak(b"\x00" * 12 + bytes.fromhex(normalize(addr)[2:]))`. -/
def leaf_hash (s : List Char) : Except String Bytes :=
  match normalize s with
  | .error e => .error e
  | .ok a => .ok (keccak (List.replicate 12 0 ++ fromHexPairs (a.drop 2)))

/-! ## Specification-side definitions

`lexMinBE`/`lexMaxBE` are modelled from the spec's words: the smaller/larger
of two byte strings under big-endian byte-wise lexicographic comparison (the
order Python's `bytes` comparison implements). -/

def lexMinBE (a b : Bytes) : Bytes := if pyLe a b then a else b

def lexMaxBE (a b : Bytes) : Bytes := if pyLe a b then b else a

/-! ## Concrete sample values used by witnesses and counterexamples -/

def leafA : Bytes := List.replicate 32 0

def leafB : Bytes := List.replicate 32 17

def leafC : Bytes := List.replicate 32 34

def sampleTx : TransferData :=
  { from_address := List.replicate 20 1
    to_address := List.replicate 20 2
    amount := 5
    nonce := 1
    timestamp := 99
    recipient_count := 1
    batch_id := 7
    tx_type := 0
    batch_salt := 1 }

/-- `sampleTx` with a different `batch_id` only. -/
def sampleTxOtherBatch : TransferData :=
  { sampleTx with batch_id := 8 }

/-- `sampleTx` with a nonce one past the uint64 range. -/
def sampleTxBadNonce : TransferData :=
  { sampleTx with nonce := 18446744073709551616 }

/-- A canonical mixed-case `0x` address as a character list. -/
def sampleAddrChars : List Char :=
  String.toList "0x70997970C51812dc3A010C7d01b50e0d17dc79C8"

/-! ## Basic facts -/

theorem keccak_length (m : Bytes) : (keccak m).length = 32 := by
  simp [keccak]

/-! ## Order lemmas for the Python byte comparison -/

theorem pyLe_eq_not_pyLt : ∀ a b : Bytes, pyLe a b = !pyLt b a
  | [], [] => rfl
  | [], _ :: _ => rfl
  | _ :: _, [] => rfl
  | a :: as, b :: bs => by
      simp only [pyLe, pyLt]
      by_cases h1 : a < b
      · simp [h1, Nat.lt_asymm h1]
      · by_cases h2 : b < a
        · simp [h1, h2]
        · simp [h1, h2, pyLe_eq_not_pyLt as bs]

theorem pyLt_asymm : ∀ a b : Bytes, pyLt a b = true → pyLt b a = false
  | [], [], h => by simp [pyLt] at h
  | [], _ :: _, _ => rfl
  | _ :: _, [], h => by simp [pyLt] at h
  | a :: as, b :: bs, h => by
      simp only [pyLt] at h ⊢
      by_cases h1 : a < b
      · simp [h1, Nat.lt_asymm h1]
      · by_cases h2 : b < a
        · simp [h1, h2] at h
        · simp [h1, h2] at h ⊢
          exact pyLt_asymm as bs h

theorem pyLt_false_eq : ∀ a b : Bytes, pyLt a b = false → pyLt b a = false → a = b
  | [], [], _, _ => rfl
  | [], _ :: _, h1, _ => by simp [pyLt] at h1
  | _ :: _, [], _, h2 => by simp [pyLt] at h2
  | a :: as, b :: bs, h1, h2 => by
      simp only [pyLt] at h1 h2
      by_cases hab : a < b
      · simp [hab] at h1
      · by_cases hba : b < a
        · simp [hba] at h2
        · have he : a = b := by omega
          subst he
          simp [hab] at h1 h2
          rw [pyLt_false_eq as bs h1 h2]

/-- The fold step of `verify_proof` computes the same sorted-pair hash as the
builder's `combine`. -/
theorem combineV_eq_combine (a b : Bytes) : combineV a b = combine a b := by
  unfold combineV combine
  rw [pyLe_eq_not_pyLt]
  cases h : pyLt b a <;> simp [h]

theorem combine_comm (a b : Bytes) : combine a b = combine b a := by
  unfold combine
  cases h1 : pyLt b a <;> cases h2 : pyLt a b <;> simp
  · rw [pyLt_false_eq a b h2 h1]
  · have := pyLt_asymm a b h2
    rw [h1] at this
    cases this

/-! ## Structure of the batch tree -/

theorem length_nextLevel : ∀ l : List Bytes, (nextLevel l).length = (l.length + 1) / 2
  | [] => rfl
  | [x] => by simp [nextLevel]
  | _ :: _ :: rest => by
      simp only [nextLevel, List.length_cons, length_nextLevel rest]
      omega

theorem nextLevel_ne_nil : ∀ l : List Bytes, l ≠ [] → nextLevel l ≠ []
  | [], h => absurd rfl h
  | [_], _ => by simp [nextLevel]
  | _ :: _ :: _, _ => by simp [nextLevel]

theorem nextLevel_getD : ∀ (l : List Bytes) (k : Nat), 2 * k < l.length →
    (nextLevel l).getD k [] =
      if 2 * k + 1 < l.length then combine (l.getD (2 * k) []) (l.getD (2 * k + 1) [])
      else l.getD (2 * k) []
  | [], k, h => by simp at h
  | [x], k, h => by
      have hk : k = 0 := by simp at h; omega
      subst hk
      simp [nextLevel]
  | x :: y :: rest, k, h => by
      cases k with
      | zero => simp [nextLevel]
      | succ k =>
          have h' : 2 * k < rest.length := by
            simp only [List.length_cons] at h; omega
          have ih := nextLevel_getD rest k h'
          have i0 : (nextLevel (x :: y :: rest)).getD (k + 1) [] = (nextLevel rest).getD k [] := by
            simp [nextLevel]
          have i1 : (x :: y :: rest).getD (2 * (k + 1)) [] = rest.getD (2 * k) [] := by
            rw [show 2 * (k + 1) = 2 * k + 1 + 1 by omega]
            simp [List.getD_cons_succ]
          have i2 : (x :: y :: rest).getD (2 * (k + 1) + 1) [] = rest.getD (2 * k + 1) [] := by
            rw [show 2 * (k + 1) + 1 = 2 * k + 1 + 1 + 1 by omega]
            simp [List.getD_cons_succ]
          rcases Nat.lt_or_ge (2 * k + 1) rest.length with hc | hc
          · rw [i0, if_pos (by simp only [List.length_cons]; omega :
                2 * (k + 1) + 1 < (x :: y :: rest).length), i1, i2, ih, if_pos hc]
          · rw [i0, if_neg (by simp only [List.length_cons]; omega :
                ¬ 2 * (k + 1) + 1 < (x :: y :: rest).length), i1, ih,
              if_neg (by omega : ¬ 2 * k + 1 < rest.length)]

theorem getLast?_cons_of_ne {α : Type} (a : α) {l : List α} (h : l ≠ []) :
    (a :: l).getLast? = l.getLast? := by
  cases l with
  | nil => exact absurd rfl h
  | cons b t => simp [List.getLast?_cons_cons]

theorem dropLast_cons_of_ne {α : Type} (a : α) {l : List α} (h : l ≠ []) :
    (a :: l).dropLast = a :: l.dropLast := by
  cases l with
  | nil => exact absurd rfl h
  | cons b t => rfl

theorem buildLoopAux_ne_nil (fuel : Nat) (cur : List Bytes) : buildLoopAux fuel cur ≠ [] := by
  cases fuel with
  | zero => simp [buildLoopAux]
  | succ fuel => simp only [buildLoopAux]; split <;> simp

theorem get_root_cons (l : List Bytes) {t : List (List Bytes)} (h : t ≠ []) :
    get_root (l :: t) = get_root t := by
  unfold get_root
  rw [getLast?_cons_of_ne _ h]

/-- Core induction: from any layer `cur` (with enough fuel), the proof
collected on the way to the root folds back to the root via the verifier's
combine step. -/
theorem roundtrip_aux (fuel : Nat) : ∀ (cur : List Bytes) (i : Nat),
    cur.length ≤ fuel + 1 → i < cur.length →
    ∃ pf, proofLoop (buildLoopAux fuel cur).dropLast i = .ok pf ∧
      pf.foldl combineV (cur.getD i []) = get_root (buildLoopAux fuel cur) := by
  induction fuel with
  | zero =>
      intro cur i hlen hi
      obtain ⟨x, rfl⟩ := List.length_eq_one.mp (show cur.length = 1 by omega)
      have hi0 : i = 0 := by simp at hi; omega
      subst hi0
      exact ⟨[], rfl, rfl⟩
  | succ fuel ih =>
      intro cur i hlen hi
      by_cases hle : cur.length ≤ 1
      · obtain ⟨x, rfl⟩ := List.length_eq_one.mp (show cur.length = 1 by omega)
        have hi0 : i = 0 := by simp at hi; omega
        subst hi0
        rw [show buildLoopAux (fuel + 1) [x] = [[x]] from by simp [buildLoopAux]]
        exact ⟨[], rfl, rfl⟩
      · have hstep : buildLoopAux (fuel + 1) cur = cur :: buildLoopAux fuel (nextLevel cur) := by
          simp only [buildLoopAux]
          rw [if_neg hle]
        have hnl : (nextLevel cur).length ≤ fuel + 1 := by
          rw [length_nextLevel]; omega
        have hbne : buildLoopAux fuel (nextLevel cur) ≠ [] := buildLoopAux_ne_nil _ _
        have hidx : i / 2 < (nextLevel cur).length := by
          rw [length_nextLevel]; omega
        obtain ⟨pf, hok, hfold⟩ := ih (nextLevel cur) (i / 2) hnl hidx
        rw [hstep, dropLast_cons_of_ne _ hbne]
        by_cases hpar : i % 2 = 0
        · by_cases hsib : i + 1 < cur.length
          · refine ⟨cur.getD (i + 1) [] :: pf, ?_, ?_⟩
            · simp only [proofLoop]
              rw [if_pos hpar, if_pos hsib, hok]
              rfl
            · rw [List.foldl_cons]
              have hcomb : combineV (cur.getD i []) (cur.getD (i + 1) []) =
                  (nextLevel cur).getD (i / 2) [] := by
                rw [combineV_eq_combine]
                have hlt : 2 * (i / 2) < cur.length := by omega
                have hng := nextLevel_getD cur (i / 2) hlt
                rw [show 2 * (i / 2) = i from by omega] at hng
                rw [hng, if_pos hsib]
              rw [hcomb, get_root_cons _ hbne, hfold]
          · refine ⟨pf, ?_, ?_⟩
            · simp only [proofLoop]
              rw [if_pos hpar, if_neg hsib, hok]
            · have hprom : (nextLevel cur).getD (i / 2) [] = cur.getD i [] := by
                have hlt : 2 * (i / 2) < cur.length := by omega
                have hng := nextLevel_getD cur (i / 2) hlt
                rw [show 2 * (i / 2) = i from by omega] at hng
                rw [hng, if_neg hsib]
              rw [get_root_cons _ hbne, ← hfold, hprom]
        · have hsib : i - 1 < cur.length := by omega
          refine ⟨cur.getD (i - 1) [] :: pf, ?_, ?_⟩
          · simp only [proofLoop]
            rw [if_neg hpar, if_pos hsib, hok]
            rfl
          · rw [List.foldl_cons]
            have hcomb : combineV (cur.getD i []) (cur.getD (i - 1) []) =
                (nextLevel cur).getD (i / 2) [] := by
              rw [combineV_eq_combine, combine_comm]
              have hlt : 2 * (i / 2) < cur.length := by omega
              have hng := nextLevel_getD cur (i / 2) hlt
              rw [show 2 * (i / 2) + 1 = i from by omega] at hng
              rw [show 2 * (i / 2) = i - 1 from by omega] at hng
              rw [hng, if_pos hi]
            rw [hcomb, get_root_cons _ hbne, hfold]

/-! ## Sorted-pair characterisations -/

theorem lexMinBE_comm (a b : Bytes) : lexMinBE a b = lexMinBE b a := by
  unfold lexMinBE
  rw [pyLe_eq_not_pyLt, pyLe_eq_not_pyLt]
  cases h1 : pyLt b a <;> cases h2 : pyLt a b <;> simp
  · exact pyLt_false_eq a b h2 h1
  · have := pyLt_asymm a b h2
    rw [h1] at this
    cases this

theorem lexMaxBE_comm (a b : Bytes) : lexMaxBE a b = lexMaxBE b a := by
  unfold lexMaxBE
  rw [pyLe_eq_not_pyLt, pyLe_eq_not_pyLt]
  cases h1 : pyLt b a <;> cases h2 : pyLt a b <;> simp
  · exact pyLt_false_eq b a h1 h2
  · have := pyLt_asymm a b h2
    rw [h1] at this
    cases this

theorem combine_eq_minmax (a b : Bytes) :
    combine a b = keccak (lexMinBE a b ++ lexMaxBE a b) := by
  unfold combine lexMinBE lexMaxBE
  rw [pyLe_eq_not_pyLt]
  cases h : pyLt b a <;> simp

theorem combineV_eq_minmax (a b : Bytes) :
    combineV a b = keccak (lexMinBE a b ++ lexMaxBE a b) := by
  rw [combineV_eq_combine, combine_eq_minmax]

theorem hash_pair_eq_combine (a b : Bytes) : hash_pair a b = combine a b := by
  unfold hash_pair combine
  cases h1 : pyLt a b <;> cases h2 : pyLt b a <;> simp
  · rw [pyLt_false_eq a b h1 h2]
  · have := pyLt_asymm a b h1
    rw [h2] at this
    cases this

theorem hash_pair_eq_minmax (a b : Bytes) :
    hash_pair a b = keccak (lexMinBE a b ++ lexMaxBE a b) := by
  rw [hash_pair_eq_combine, combine_eq_minmax]

/-! ## Odd layers: promotion (batch) versus self-duplication (whitelist) -/

theorem nextLevel_getLast_odd : ∀ l : List Bytes, l.length % 2 = 1 →
    (nextLevel l).getLast? = l.getLast?
  | [], h => by simp at h
  | [x], _ => rfl
  | x :: y :: rest, h => by
      have hr : rest.length % 2 = 1 := by
        simp only [List.length_cons] at h; omega
      have hne : rest ≠ [] := by
        intro he; rw [he] at hr; simp at hr
      show (combine x y :: nextLevel rest).getLast? = (x :: y :: rest).getLast?
      rw [getLast?_cons_of_ne _ (nextLevel_ne_nil rest hne),
        nextLevel_getLast_odd rest hr, getLast?_cons_of_ne _ (by simp),
        getLast?_cons_of_ne _ hne]

theorem wlNext_ne_nil : ∀ l : List Bytes, l ≠ [] → wlNext l ≠ []
  | [], h => absurd rfl h
  | [_], _ => by simp [wlNext]
  | _ :: _ :: _, _ => by simp [wlNext]

theorem wlNext_getLast_odd : ∀ l : List Bytes, l.length % 2 = 1 →
    ∃ z, l.getLast? = some z ∧ (wlNext l).getLast? = some (hash_pair z z)
  | [], h => by simp at h
  | [x], _ => ⟨x, rfl, rfl⟩
  | x :: y :: rest, h => by
      have hr : rest.length % 2 = 1 := by
        simp only [List.length_cons] at h; omega
      have hne : rest ≠ [] := by
        intro he; rw [he] at hr; simp at hr
      obtain ⟨z, hz, hw⟩ := wlNext_getLast_odd rest hr
      refine ⟨z, ?_, ?_⟩
      · rw [getLast?_cons_of_ne _ (by simp), getLast?_cons_of_ne _ hne, hz]
      · show (hash_pair x y :: wlNext rest).getLast? = some (hash_pair z z)
        rw [getLast?_cons_of_ne _ (wlNext_ne_nil rest hne), hw]

theorem wlDeployNext_ne_nil : ∀ l : List Bytes, l ≠ [] → wlDeployNext l ≠ []
  | [], h => absurd rfl h
  | [_], _ => by simp [wlDeployNext]
  | _ :: _ :: _, _ => by simp [wlDeployNext]

theorem wlDeployNext_getLast_odd : ∀ l : List Bytes, l.length % 2 = 1 →
    ∃ z, l.getLast? = some z ∧ (wlDeployNext l).getLast? = some (combine z z)
  | [], h => by simp at h
  | [x], _ => ⟨x, rfl, rfl⟩
  | x :: y :: rest, h => by
      have hr : rest.length % 2 = 1 := by
        simp only [List.length_cons] at h; omega
      have hne : rest ≠ [] := by
        intro he; rw [he] at hr; simp at hr
      obtain ⟨z, hz, hw⟩ := wlDeployNext_getLast_odd rest hr
      refine ⟨z, ?_, ?_⟩
      · rw [getLast?_cons_of_ne _ (by simp), getLast?_cons_of_ne _ hne, hz]
      · show (combine x y :: wlDeployNext rest).getLast? = some (combine z z)
        rw [getLast?_cons_of_ne _ (wlDeployNext_ne_nil rest hne), hw]

/-! ## Layer invariants of the batch tree -/

theorem buildLoopAux_head (fuel : Nat) (cur : List Bytes) :
    (buildLoopAux fuel cur).head? = some cur := by
  cases fuel with
  | zero => rfl
  | succ fuel => simp only [buildLoopAux]; split <;> rfl

theorem buildLoopAux_layers_ne_nil (fuel : Nat) :
    ∀ cur : List Bytes, cur ≠ [] → ∀ layer ∈ buildLoopAux fuel cur, layer ≠ [] := by
  induction fuel with
  | zero =>
      intro cur hne layer hmem
      simp only [buildLoopAux, List.mem_singleton] at hmem
      rw [hmem]; exact hne
  | succ fuel ih =>
      intro cur hne layer hmem
      simp only [buildLoopAux] at hmem
      by_cases hle : cur.length ≤ 1
      · rw [if_pos hle] at hmem
        simp only [List.mem_singleton] at hmem
        rw [hmem]; exact hne
      · rw [if_neg hle] at hmem
        rcases List.mem_cons.mp hmem with h | h
        · rw [h]; exact hne
        · exact ih (nextLevel cur) (nextLevel_ne_nil cur hne) layer h

theorem buildLoopAux_chain_lt (fuel : Nat) :
    ∀ cur : List Bytes,
      List.Chain' (fun a b : List Bytes => b.length < a.length) (buildLoopAux fuel cur) := by
  induction fuel with
  | zero => intro cur; simp [buildLoopAux]
  | succ fuel ih =>
      intro cur
      simp only [buildLoopAux]
      by_cases hle : cur.length ≤ 1
      · rw [if_pos hle]; simp
      · rw [if_neg hle]
        refine List.chain'_cons'.mpr ⟨?_, ih (nextLevel cur)⟩
        intro y hy
        rw [buildLoopAux_head] at hy
        cases hy
        rw [length_nextLevel]
        omega

theorem buildLoopAux_last_singleton (fuel : Nat) :
    ∀ cur : List Bytes, cur ≠ [] → cur.length ≤ fuel + 1 →
      ∃ r, (buildLoopAux fuel cur).getLast? = some [r] := by
  induction fuel with
  | zero =>
      intro cur hne hlen
      obtain ⟨x, rfl⟩ := List.length_eq_one.mp
        (show cur.length = 1 by have := List.length_pos.mpr hne; omega)
      exact ⟨x, rfl⟩
  | succ fuel ih =>
      intro cur hne hlen
      by_cases hle : cur.length ≤ 1
      · obtain ⟨x, rfl⟩ := List.length_eq_one.mp
          (show cur.length = 1 by have := List.length_pos.mpr hne; omega)
        exact ⟨x, by simp [buildLoopAux]⟩
      · have hstep : buildLoopAux (fuel + 1) cur = cur :: buildLoopAux fuel (nextLevel cur) := by
          simp only [buildLoopAux]; rw [if_neg hle]
        obtain ⟨r, hr⟩ := ih (nextLevel cur) (nextLevel_ne_nil cur hne)
          (by rw [length_nextLevel]; omega)
        exact ⟨r, by rw [hstep, getLast?_cons_of_ne _ (buildLoopAux_ne_nil _ _), hr]⟩

theorem nextLevel_all_32 : ∀ l : List Bytes, (∀ b ∈ l, b.length = 32) →
    ∀ b ∈ nextLevel l, b.length = 32
  | [], _, b, hmem => by simp [nextLevel] at hmem
  | [x], h, b, hmem => by
      simp only [nextLevel, List.mem_singleton] at hmem
      rw [hmem]; exact h x (by simp)
  | x :: y :: rest, h, b, hmem => by
      simp only [nextLevel] at hmem
      rcases List.mem_cons.mp hmem with hb | hb
      · rw [hb]
        unfold combine
        split <;> exact keccak_length _
      · exact nextLevel_all_32 rest (fun c hc => h c (by simp [hc])) b hb

theorem buildLoopAux_all_32 (fuel : Nat) :
    ∀ cur : List Bytes, (∀ b ∈ cur, b.length = 32) →
      ∀ layer ∈ buildLoopAux fuel cur, ∀ node ∈ layer, node.length = 32 := by
  induction fuel with
  | zero =>
      intro cur h32 layer hmem
      simp only [buildLoopAux, List.mem_singleton] at hmem
      rw [hmem]; exact h32
  | succ fuel ih =>
      intro cur h32 layer hmem
      simp only [buildLoopAux] at hmem
      by_cases hle : cur.length ≤ 1
      · rw [if_pos hle] at hmem
        simp only [List.mem_singleton] at hmem
        rw [hmem]; exact h32
      · rw [if_neg hle] at hmem
        rcases List.mem_cons.mp hmem with h | h
        · rw [h]; exact h32
        · exact ih (nextLevel cur) (nextLevel_all_32 cur h32) layer h

/-! ## Encoder lengths -/

theorem toBytesBE_length (w v : Nat) : (toBytesBE w v).length = w := by
  simp [toBytesBE]

theorem fromHexPairs_length : ∀ l : List Char, (fromHexPairs l).length = l.length / 2
  | [] => rfl
  | [c] => by simp [fromHexPairs]
  | _ :: _ :: rest => by
      simp only [fromHexPairs, List.length_cons, fromHexPairs_length rest]
      omega

theorem build_tree_eq_aux {L : List Bytes} (hne : L ≠ []) :
    build_tree L = buildLoopAux L.length L := by
  unfold build_tree
  rw [if_neg (by simp only [List.isEmpty_eq_true]; exact hne)]

/-! ## Claim theorems -/

set_option maxRecDepth 1000000 in
set_option maxHeartbeats 12000000 in
/-- Claim C1 counterexample: in `generateRoot.py`, the proof generated for
index 2 of the 3-leaf tree does not verify against the root the same file
computes — `build_tree` pairs the odd trailing leaf with itself while
`proof` contributes no sibling for it, so `verify_sorted` returns `false`. -/
theorem wl_sorted_roundtrip_counterexample :
    verify_sorted leafC (wlProof (wlBuild [leafA, leafB, leafC]) 2)
      (wlRootOf (wlBuild [leafA, leafB, leafC])) = false := by
  decide

set_option maxRecDepth 1000000 in
set_option maxHeartbeats 12000000 in
/-- Claim C2 counterexample: on the concrete odd layer `[leafA, leafB,
leafC]`, the whitelist layer step hashes the trailing node with a copy of
itself, and that hash differs from the node — it is not promoted
unchanged. -/
theorem wl_odd_node_self_pair_counterexample :
    (wlNext [leafA, leafB, leafC]).getLast? = some (hash_pair leafC leafC) ∧
    hash_pair leafC leafC ≠ leafC := by
  constructor
  · rfl
  · decide

/-- Claim C1 (amended): for the batch `MerkleTree` of `generateBatchRoot.py`
(and its identical copy in `generateBatchRootDeploy.py`), for every non-empty
leaf list `L` and every index `i < |L|`, `get_proof` succeeds and
`verify_proof` accepts leaf `L[i]` with that proof against `get_root`.  (As
stated over all cited implementations the claim is false: the
`generateRoot.py` whitelist variant fails it, see the counterexample.) -/
theorem batch_merkle_roundtrip (L : List Bytes) (i : Nat) (hne : L ≠ [])
    (hi : i < L.length) :
    ∃ pf, get_proof (build_tree L) i = .ok pf ∧
      verify_proof (L.getD i []) pf (get_root (build_tree L)) = true := by
  obtain ⟨pf, hok, hfold⟩ := roundtrip_aux L.length L i (by omega) hi
  refine ⟨pf, ?_, ?_⟩
  · rw [build_tree_eq_aux hne]
    exact hok
  · rw [build_tree_eq_aux hne]
    unfold verify_proof
    rw [hfold]
    exact beq_self_eq_true _

/-- Witness for C1's theorem at a concrete 3-leaf tree and index 2. -/
theorem batch_merkle_roundtrip_witness :
    ∃ pf, get_proof (build_tree [leafA, leafB, leafC]) 2 = .ok pf ∧
      verify_proof ([leafA, leafB, leafC].getD 2 []) pf
        (get_root (build_tree [leafA, leafB, leafC])) = true :=
  batch_merkle_roundtrip [leafA, leafB, leafC] 2 (by simp) (by simp)

/-- Claim C2 (amended): a trailing unpaired node of an odd-length layer is
promoted unchanged by the batch tree's layer step (`nextLevel`), but both
whitelist variants (`build_tree` of `generateRoot.py`, `merkle_tree` of
`generateWhitelistRootDeploy.py`) instead combine it with a copy of itself. -/
theorem odd_node_promotion_vs_duplication :
    (∀ cur : List Bytes, cur.length % 2 = 1 →
      (nextLevel cur).getLast? = cur.getLast?) ∧
    (∀ cur : List Bytes, cur.length % 2 = 1 →
      ∃ z, cur.getLast? = some z ∧ (wlNext cur).getLast? = some (hash_pair z z)) ∧
    (∀ cur : List Bytes, cur.length % 2 = 1 →
      ∃ z, cur.getLast? = some z ∧ (wlDeployNext cur).getLast? = some (combine z z)) :=
  ⟨nextLevel_getLast_odd, wlNext_getLast_odd, wlDeployNext_getLast_odd⟩

/-- Witness for C2's theorem at a concrete odd-length layer. -/
theorem odd_node_promotion_vs_duplication_witness :
    (nextLevel [leafA, leafB, leafC]).getLast? = [leafA, leafB, leafC].getLast? ∧
    (∃ z, [leafA, leafB, leafC].getLast? = some z ∧
      (wlNext [leafA, leafB, leafC]).getLast? = some (hash_pair z z)) ∧
    (∃ z, [leafA, leafB, leafC].getLast? = some z ∧
      (wlDeployNext [leafA, leafB, leafC]).getLast? = some (combine z z)) :=
  ⟨odd_node_promotion_vs_duplication.1 [leafA, leafB, leafC] (by rfl),
   odd_node_promotion_vs_duplication.2.1 [leafA, leafB, leafC] (by rfl),
   odd_node_promotion_vs_duplication.2.2 [leafA, leafB, leafC] (by rfl)⟩

/-- Claim C3 counterexample: the packed transfer encoding of a concrete
record is 99 bytes, not 100 as claimed — the declared widths
20+20+32+8+6+4+1+8 sum to 99. -/
theorem packed_length_not_100 :
    (packedEncode sampleTx).length = 99 ∧ ¬ (packedEncode sampleTx).length = 100 := by
  decide

/-- Claim C3 (amended): `calculate_tx_hash` is a single keccak256 pass over
the separator-free concatenation of the big-endian fixed-width encodings
fromAddress(20B) ‖ toAddress(20B) ‖ amount(32B) ‖ nonce(8B) ‖ timestamp(6B) ‖
recipientCount(4B) ‖ txType(1B) ‖ batchSalt(8B), and this concatenation is
99 bytes long (not 100). -/
theorem transfer_leaf_packed_layout (tx : TransferData)
    (h1 : tx.from_address.length = 20) (h2 : tx.to_address.length = 20) :
    calculate_tx_hash tx = keccak (packedEncode tx) ∧
    packedEncode tx =
      tx.from_address ++ tx.to_address ++ toBytesBE 32 tx.amount ++ toBytesBE 8 tx.nonce ++
        toBytesBE 6 tx.timestamp ++ toBytesBE 4 tx.recipient_count ++
        toBytesBE 1 tx.tx_type ++ toBytesBE 8 tx.batch_salt ∧
    (packedEncode tx).length = 99 := by
  refine ⟨rfl, rfl, ?_⟩
  simp [packedEncode, toBytesBE_length, h1, h2]

/-- Witness for C3's theorem at a concrete record. -/
theorem transfer_leaf_packed_layout_witness :
    calculate_tx_hash sampleTx = keccak (packedEncode sampleTx) ∧
    packedEncode sampleTx =
      sampleTx.from_address ++ sampleTx.to_address ++ toBytesBE 32 sampleTx.amount ++
        toBytesBE 8 sampleTx.nonce ++ toBytesBE 6 sampleTx.timestamp ++
        toBytesBE 4 sampleTx.recipient_count ++ toBytesBE 1 sampleTx.tx_type ++
        toBytesBE 8 sampleTx.batch_salt ∧
    (packedEncode sampleTx).length = 99 :=
  transfer_leaf_packed_layout sampleTx (by decide) (by decide)

/-- Claim C4: two transfer records identical in every field except
`batch_id` hash identically — `calculate_tx_hash` never reads `batch_id`. -/
theorem tx_hash_ignores_batch_id (t1 t2 : TransferData)
    (hfrom : t1.from_address = t2.from_address) (hto : t1.to_address = t2.to_address)
    (ham : t1.amount = t2.amount) (hn : t1.nonce = t2.nonce)
    (hts : t1.timestamp = t2.timestamp) (hrc : t1.recipient_count = t2.recipient_count)
    (htt : t1.tx_type = t2.tx_type) (hbs : t1.batch_salt = t2.batch_salt) :
    calculate_tx_hash t1 = calculate_tx_hash t2 := by
  cases t1
  cases t2
  simp_all [calculate_tx_hash, packedEncode]

/-- Witness for C4's theorem: two concrete records differing only in
`batch_id`. -/
theorem tx_hash_ignores_batch_id_witness :
    calculate_tx_hash sampleTx = calculate_tx_hash sampleTxOtherBatch ∧
    sampleTx.batch_id ≠ sampleTxOtherBatch.batch_id :=
  ⟨tx_hash_ignores_batch_id sampleTx sampleTxOtherBatch rfl rfl rfl rfl rfl rfl rfl rfl,
   by decide⟩

/-- Claim C5: every pair-combination rule in the sources (`hash_pair` of
`generateRoot.py`, the builder's `combine`, the verifier's fold step
`combineV`) equals `keccak256(min(a,b) ‖ max(a,b))` under big-endian
byte-wise lexicographic comparison, and is therefore symmetric. -/
theorem combine_rule_sorted_pair_symm (a b : Bytes)
    (ha : a.length = 32) (hb : b.length = 32) :
    hash_pair a b = keccak (lexMinBE a b ++ lexMaxBE a b) ∧
    combine a b = keccak (lexMinBE a b ++ lexMaxBE a b) ∧
    combineV a b = keccak (lexMinBE a b ++ lexMaxBE a b) ∧
    hash_pair a b = hash_pair b a ∧
    combine a b = combine b a ∧
    combineV a b = combineV b a := by
  refine ⟨hash_pair_eq_minmax a b, combine_eq_minmax a b, combineV_eq_minmax a b, ?_,
    combine_comm a b, ?_⟩
  · rw [hash_pair_eq_combine, hash_pair_eq_combine, combine_comm]
  · rw [combineV_eq_combine, combineV_eq_combine, combine_comm]

/-- Witness for C5's theorem at two concrete 32-byte values. -/
theorem combine_rule_sorted_pair_symm_witness :
    hash_pair leafA leafB = keccak (lexMinBE leafA leafB ++ lexMaxBE leafA leafB) ∧
    combine leafA leafB = keccak (lexMinBE leafA leafB ++ lexMaxBE leafA leafB) ∧
    combineV leafA leafB = keccak (lexMinBE leafA leafB ++ lexMaxBE leafA leafB) ∧
    hash_pair leafA leafB = hash_pair leafB leafA ∧
    combine leafA leafB = combine leafB leafA ∧
    combineV leafA leafB = combineV leafB leafA :=
  combine_rule_sorted_pair_symm leafA leafB (by decide) (by decide)

/-- Claim C6 (amended): the batch `MerkleTree` maps empty input to the
32-zero-byte sentinel root without error. -/
theorem batch_empty_root_zero : get_root (build_tree []) = List.replicate 32 0 := rfl

/-- Claim C6 counterexample: in `generateWhitelistRootDeploy.py`,
`merkle_root(merkle_tree([]))` raises `IndexError` instead of returning the
zero sentinel: `merkle_tree([])` is `[[]]`, which is truthy, so
`tree[-1][0]` indexes the empty last layer. -/
theorem wl_deploy_empty_root_error :
    merkle_root (wlDeployTree []) = .error .indexError := rfl

/-- Claim C7 (amended): `get_proof` performs no bounds check on the index:
for any 2-leaf tree, the out-of-range index 2 (= leafCount) silently returns
the empty proof list instead of failing with an out-of-range error. -/
theorem get_proof_out_of_range_silent (a b : Bytes) :
    get_proof (build_tree [a, b]) 2 = .ok [] := rfl

/-- Claim C7 counterexample: at a concrete 2-leaf tree, requesting the
out-of-range index 2 returns `.ok []` — a proof value is returned and no
out-of-range error is raised. -/
theorem get_proof_out_of_range_counterexample :
    get_proof (build_tree [leafA, leafB]) 2 = .ok [] := rfl

/-- Claim C8: `calculate_tx_hash` of `generateBatchRootDeploy.py` validates
nonce (uint64), timestamp (uint48) and recipientCount (uint32) — in that
order — before hashing; a violation yields the `ValueError` naming the
offending field and no hash is produced, and in-range records hash to the
packed keccak. -/
theorem deploy_tx_hash_bounds (tx : TransferData) :
    (18446744073709551615 < tx.nonce →
      calculate_tx_hash_deploy tx = .error "nonce exceeds uint64") ∧
    (tx.nonce ≤ 18446744073709551615 → 281474976710655 < tx.timestamp →
      calculate_tx_hash_deploy tx = .error "timestamp exceeds uint48") ∧
    (tx.nonce ≤ 18446744073709551615 → tx.timestamp ≤ 281474976710655 →
      4294967295 < tx.recipient_count →
      calculate_tx_hash_deploy tx = .error "recipient_count exceeds uint32") ∧
    (tx.nonce ≤ 18446744073709551615 → tx.timestamp ≤ 281474976710655 →
      tx.recipient_count ≤ 4294967295 →
      calculate_tx_hash_deploy tx = .ok (keccak (packedEncode tx))) := by
  refine ⟨?_, ?_, ?_, ?_⟩
  · intro h1
    unfold calculate_tx_hash_deploy ensure_uint_bounds
    rw [if_pos h1]
  · intro h1 h2
    unfold calculate_tx_hash_deploy ensure_uint_bounds
    rw [if_neg (by omega), if_pos h2]
  · intro h1 h2 h3
    unfold calculate_tx_hash_deploy ensure_uint_bounds
    rw [if_neg (by omega), if_neg (by omega), if_pos h3]
  · intro h1 h2 h3
    unfold calculate_tx_hash_deploy ensure_uint_bounds
    rw [if_neg (by omega), if_neg (by omega), if_neg (by omega)]

/-- Witness for C8's theorem: a record one past the uint64 nonce bound
fails with the nonce message; an in-range record hashes. -/
theorem deploy_tx_hash_bounds_witness :
    calculate_tx_hash_deploy sampleTxBadNonce = .error "nonce exceeds uint64" ∧
    calculate_tx_hash_deploy sampleTx = .ok (keccak (packedEncode sampleTx)) :=
  ⟨(deploy_tx_hash_bounds sampleTxBadNonce).1 (by decide),
   (deploy_tx_hash_bounds sampleTx).2.2.2 (by decide) (by decide) (by decide)⟩

/-- Claim C9: for a canonical `0x`-prefixed 40-hex-digit address string,
`leaf_hash` is a single keccak256 pass over the 32-byte buffer of 12 zero
bytes followed by the 20 bytes decoded from the lowercased address. -/
theorem whitelist_leaf_hash_layout (s : List Char)
    (hs : pyStrip s = s) (h0 : startsWith0x s = true) (hhex : isHexAddress s = true) :
    leaf_hash s = .ok (keccak (List.replicate 12 0 ++
      fromHexPairs ((s.map toLowerCh).drop 2))) ∧
    (fromHexPairs ((s.map toLowerCh).drop 2)).length = 20 ∧
    (List.replicate 12 0 ++ fromHexPairs ((s.map toLowerCh).drop 2)).length = 32 := by
  have hlen : s.length = 42 := by
    unfold isHexAddress at hhex
    simp [Bool.and_eq_true] at hhex
    exact hhex.1.1
  have h20 : (fromHexPairs ((s.map toLowerCh).drop 2)).length = 20 := by
    rw [fromHexPairs_length, List.length_drop, List.length_map, hlen]
  refine ⟨?_, h20, by simp [h20]⟩
  simp [leaf_hash, normalize, hs, h0, hhex]

/-- Witness for C9's theorem at a concrete mixed-case address. -/
theorem whitelist_leaf_hash_layout_witness :
    leaf_hash sampleAddrChars = .ok (keccak (List.replicate 12 0 ++
      fromHexPairs ((sampleAddrChars.map toLowerCh).drop 2))) ∧
    (fromHexPairs ((sampleAddrChars.map toLowerCh).drop 2)).length = 20 ∧
    (List.replicate 12 0 ++
      fromHexPairs ((sampleAddrChars.map toLowerCh).drop 2)).length = 32 :=
  whitelist_leaf_hash_layout sampleAddrChars (by decide) (by decide) (by decide)

/-- Claim C10: for every non-empty list of 32-byte leaves, the batch tree's
layer 0 is the input, all layers are non-empty, consecutive layers strictly
shrink, the final layer is a singleton, and every node is 32 bytes. -/
theorem batch_tree_layer_invariants (L : List Bytes) (hne : L ≠ [])
    (h32 : ∀ b ∈ L, b.length = 32) :
    (build_tree L).head? = some L ∧
    (∀ layer ∈ build_tree L, layer ≠ []) ∧
    List.Chain' (fun a b : List Bytes => b.length < a.length) (build_tree L) ∧
    (∃ r, (build_tree L).getLast? = some [r]) ∧
    (∀ layer ∈ build_tree L, ∀ node ∈ layer, node.length = 32) := by
  rw [build_tree_eq_aux hne]
  exact ⟨buildLoopAux_head _ _, buildLoopAux_layers_ne_nil _ _ hne,
    buildLoopAux_chain_lt _ _, buildLoopAux_last_singleton _ _ hne (by omega),
    buildLoopAux_all_32 _ _ h32⟩

/-- Witness for C10's theorem at a concrete 3-leaf input. -/
theorem batch_tree_layer_invariants_witness :
    (build_tree [leafA, leafB, leafC]).head? = some [leafA, leafB, leafC] ∧
    (∀ layer ∈ build_tree [leafA, leafB, leafC], layer ≠ []) ∧
    List.Chain' (fun a b : List Bytes => b.length < a.length)
      (build_tree [leafA, leafB, leafC]) ∧
    (∃ r, (build_tree [leafA, leafB, leafC]).getLast? = some [r]) ∧
    (∀ layer ∈ build_tree [leafA, leafB, leafC], ∀ node ∈ layer, node.length = 32) :=
  batch_tree_layer_invariants [leafA, leafB, leafC] (by simp) (by decide)

end SettleBatch
